import Mathlib

/-!
Verification of the URL-driven report component of `react-query-param-filters`.

The development shallowly embeds the logic of `src/components/Report/Report.jsx`
and `src/components/Report/FilterComponent.jsx` (plus the option table of
`src/data/mockApi.js`):

* query strings are modelled at the level of their decoded parameter entry
  lists `List (String × String)` — `URLSearchParams` parsing/printing of the
  raw text is a bijection between such lists and canonical strings, so every
  claim about decode/encode round trips is stated on entry lists;
* JavaScript numbers that arise here are integers or `NaN`; they are embedded
  as `Option Int` with `none` playing the role of `NaN` (the code paths in
  scope never produce other non-integer values);
* JavaScript objects used as string-keyed maps (`filters`, `tempFilters`,
  `filterValues`) are embedded as association lists in key-insertion order,
  which is the object iteration order for the non-numeric keys this
  component uses;
* the asynchronous fetch effect is embedded as a pure step function from the
  captured state and the provider's outcome to an effect on the view state.
-/

namespace ReportModel

/-! ## JavaScript numeric primitives -/

/-- Decimal digit test on a character, as JS `parseInt` sees it
(code points 48–57). -/
def isDigitCh (c : Char) : Bool :=
  decide (48 ≤ c.toNat ∧ c.toNat ≤ 57)

/-- Whitespace skipped by JS `parseInt` (space, tab, LF, CR). -/
def jsWhitespace (c : Char) : Bool :=
  decide (c.toNat = 32 ∨ c.toNat = 9 ∨ c.toNat = 10 ∨ c.toNat = 13)

/-- Value of a run of decimal digit characters, most significant first. -/
def fromDigits (ds : List Char) : Nat :=
  ds.foldl (fun acc c => acc * 10 + (c.toNat - 48)) 0

/-- The character for a single decimal digit. -/
def digitCh (d : Nat) : Char :=
  if d = 0 then '0' else if d = 1 then '1' else if d = 2 then '2'
  else if d = 3 then '3' else if d = 4 then '4' else if d = 5 then '5'
  else if d = 6 then '6' else if d = 7 then '7' else if d = 8 then '8' else '9'

/-- Fuel-driven digit printer; the fuel always suffices below, and the
structural recursion keeps the definition kernel-reducible. -/
def natToCharsAux : Nat → Nat → List Char
  | 0, _ => []
  | fuel + 1, n =>
    if n < 10 then [digitCh n] else natToCharsAux fuel (n / 10) ++ [digitCh (n % 10)]

/-- Decimal digit string of a natural number, as JS `Number.toString` prints
nonnegative integers. -/
def natToChars (n : Nat) : List Char := natToCharsAux (n + 1) n

/-- JS `parseInt(·, 10)` on the digit part: value of the longest leading digit
run, `NaN` (here `none`) if there is none. -/
def jsParseNat (cs : List Char) : Option Nat :=
  let ds := cs.takeWhile isDigitCh
  if ds.isEmpty then none else some (fromDigits ds)

/-- JS `parseInt(·, 10)` after whitespace skipping: an optional sign followed
by the leading digit run. -/
def jsParseIntSigned (cs : List Char) : Option Int :=
  if cs.head? = some '-' then (jsParseNat cs.tail).map (fun n => -(Int.ofNat n))
  else if cs.head? = some '+' then (jsParseNat cs.tail).map (fun n => Int.ofNat n)
  else (jsParseNat cs).map (fun n => Int.ofNat n)

/-- JS `parseInt(s, 10)` on the integer/NaN value range the component can
observe. The value of the digit run is kept exact here; the program rounds
it to double precision once it exceeds `2^53`, so theorems that feed a
parsed value back through printing carry explicit range hypotheses keeping
the value inside the exact range, where parsing, `±1` arithmetic and
printing agree with the program. -/
def jsParseInt (s : String) : Option Int :=
  jsParseIntSigned (s.data.dropWhile jsWhitespace)

/-- Drop the trailing `'0'` characters of a digit run. -/
def stripTrailingZeros (ds : List Char) : List Char :=
  (ds.reverse.dropWhile (fun c => c == '0')).reverse

/-- Exponential notation for a digit string `d₁d₂…dₖ`: significand
`d₁` (with `.d₂…` when the remaining digits are not all zero, trailing
zeros stripped) followed by `e+` and the exponent `k - 1`. This matches JS
`Number.prototype.toString` on the values whose exact digits are the
shortest round-tripping representation (in particular `10^21 ↦ "1e+21"`);
above the exact-double range the program would additionally round the
significand, which this embedding does not model — theorems that rely on a
print/parse round trip therefore carry explicit range hypotheses. -/
def jsExpChars (ds : List Char) : List Char :=
  match ds with
  | [] => []
  | d :: rest =>
    (if (stripTrailingZeros rest).isEmpty then [d]
      else d :: '.' :: stripTrailingZeros rest)
      ++ ('e' :: '+' :: natToChars rest.length)

/-- JS prints nonnegative integers below `10^21` in plain decimal and
switches to exponential notation from `10^21` on. -/
def jsNatChars (n : Nat) : List Char :=
  if n < 1000000000000000000000 then natToChars n else jsExpChars (natToChars n)

/-- JS `Number.prototype.toString` for integer values. -/
def jsIntToString (n : Int) : String :=
  if n < 0 then String.mk ('-' :: jsNatChars n.natAbs) else String.mk (jsNatChars n.natAbs)

/-- JS number-to-string conversion including the `NaN` case. -/
def jsNumToString : Option Int → String
  | none => "NaN"
  | some n => jsIntToString n

/-- JS `Math.max(a, x)` with a known first argument: `NaN` propagates. -/
def jsMaxNum (a : Int) (x : Option Int) : Option Int :=
  x.map (fun b => max a b)

/-- JS `Math.min(x, b)` with a known second argument: `NaN` propagates. -/
def jsMinNum (x : Option Int) (b : Int) : Option Int :=
  x.map (fun a => min a b)

/-! ### Round-trip facts about the numeric primitives -/

theorem digitCh_isDigit (d : Nat) : isDigitCh (digitCh d) = true := by
  unfold digitCh
  split_ifs <;> decide

theorem digitCh_toNat (d : Nat) (h : d < 10) : (digitCh d).toNat = 48 + d := by
  interval_cases d <;> rfl

theorem fromDigits_append_singleton (l : List Char) (c : Char) :
    fromDigits (l ++ [c]) = fromDigits l * 10 + (c.toNat - 48) := by
  simp [fromDigits, List.foldl_append]

theorem natToCharsAux_spec :
    ∀ (fuel n : Nat), n < fuel →
      (∀ c ∈ natToCharsAux fuel n, isDigitCh c = true) ∧ natToCharsAux fuel n ≠ [] ∧
        fromDigits (natToCharsAux fuel n) = n := by
  intro fuel
  induction fuel with
  | zero => omega
  | succ fuel ih =>
    intro n hn
    simp only [natToCharsAux]
    split
    · next h =>
      refine ⟨?_, by simp, ?_⟩
      · intro c hc
        simp only [List.mem_singleton] at hc
        subst hc
        exact digitCh_isDigit n
      · simp [fromDigits, digitCh_toNat n h]
    · next h =>
      have hlt : n / 10 < fuel := by omega
      obtain ⟨ih1, ih2, ih3⟩ := ih (n / 10) hlt
      refine ⟨?_, by simp, ?_⟩
      · intro c hc
        rcases List.mem_append.mp hc with hc | hc
        · exact ih1 c hc
        · simp only [List.mem_singleton] at hc
          subst hc
          exact digitCh_isDigit _
      · rw [fromDigits_append_singleton, ih3, digitCh_toNat _ (Nat.mod_lt _ (by omega))]
        omega

theorem natToChars_spec (n : Nat) :
    (∀ c ∈ natToChars n, isDigitCh c = true) ∧ natToChars n ≠ [] ∧
      fromDigits (natToChars n) = n :=
  natToCharsAux_spec (n + 1) n (by omega)

theorem digit_not_ws (c : Char) (h : isDigitCh c = true) : jsWhitespace c = false := by
  simp only [isDigitCh, decide_eq_true_eq] at h
  simp only [jsWhitespace, decide_eq_false_iff_not]
  omega

theorem takeWhile_eq_self_of_forall {p : Char → Bool} :
    ∀ l : List Char, (∀ c ∈ l, p c = true) → l.takeWhile p = l := by
  intro l h
  induction l with
  | nil => rfl
  | cons c cs ihc =>
    rw [List.takeWhile_cons, h c (by simp)]
    simp [ihc fun x hx => h x (by simp [hx])]

theorem jsParseNat_natToChars (n : Nat) : jsParseNat (natToChars n) = some n := by
  obtain ⟨hdig, hne, hval⟩ := natToChars_spec n
  unfold jsParseNat
  rw [takeWhile_eq_self_of_forall _ hdig]
  rw [if_neg (by simpa [List.isEmpty_iff] using hne)]
  exact congrArg some hval

theorem natToChars_head_digit (n : Nat) :
    ∃ c cs, natToChars n = c :: cs ∧ isDigitCh c = true := by
  obtain ⟨hdig, hne, -⟩ := natToChars_spec n
  obtain ⟨c, cs, hcons⟩ := List.exists_cons_of_ne_nil hne
  exact ⟨c, cs, hcons, hdig c (by simp [hcons])⟩

theorem digit_ne_minus (c : Char) (h : isDigitCh c = true) : c ≠ '-' := by
  intro hc
  subst hc
  simp [isDigitCh] at h

theorem digit_ne_plus (c : Char) (h : isDigitCh c = true) : c ≠ '+' := by
  intro hc
  subst hc
  simp [isDigitCh] at h

theorem jsNatChars_small (n : Nat) (h : n < 1000000000000000000000) :
    jsNatChars n = natToChars n := by
  unfold jsNatChars
  rw [if_pos h]

theorem jsParseInt_print (n : Int) (hsmall : n.natAbs < 1000000000000000000000) :
    jsParseInt (jsIntToString n) = some n := by
  unfold jsParseInt jsIntToString
  rw [jsNatChars_small n.natAbs hsmall]
  split
  · next hneg =>
    have hmem : jsWhitespace '-' = false := by decide
    show jsParseIntSigned (List.dropWhile jsWhitespace ('-' :: natToChars n.natAbs)) = some n
    simp only [List.dropWhile_cons, hmem, Bool.false_eq_true, if_false]
    rw [jsParseIntSigned,
      if_pos (show ('-' :: natToChars n.natAbs).head? = some '-' from rfl)]
    rw [List.tail_cons, jsParseNat_natToChars]
    show some (-(Int.ofNat n.natAbs)) = some n
    congr 1
    simp only [Int.ofNat_eq_natCast]
    omega
  · next hpos =>
    obtain ⟨c, cs, hcons, hdig⟩ := natToChars_head_digit n.natAbs
    show jsParseIntSigned (List.dropWhile jsWhitespace (natToChars n.natAbs)) = some n
    rw [hcons]
    simp only [List.dropWhile_cons, digit_not_ws c hdig, Bool.false_eq_true, if_false]
    rw [jsParseIntSigned]
    rw [if_neg (show ¬((c :: cs).head? = some '-') by
      simp only [List.head?_cons, Option.some.injEq]
      exact digit_ne_minus c hdig)]
    rw [if_neg (show ¬((c :: cs).head? = some '+') by
      simp only [List.head?_cons, Option.some.injEq]
      exact digit_ne_plus c hdig)]
    rw [← hcons, jsParseNat_natToChars]
    show some (Int.ofNat n.natAbs) = some n
    congr 1
    simp only [Int.ofNat_eq_natCast]
    omega

theorem jsParseInt_NaN : jsParseInt "NaN" = none := by decide

theorem natToChars_ne_nil (n : Nat) : natToChars n ≠ [] :=
  (natToChars_spec n).2.1

theorem jsNatChars_ne_nil (n : Nat) : jsNatChars n ≠ [] := by
  unfold jsNatChars
  split
  · exact natToChars_ne_nil n
  · obtain ⟨c, cs, hcons, -⟩ := natToChars_head_digit n
    rw [hcons]
    show jsExpChars (c :: cs) ≠ []
    unfold jsExpChars
    simp

theorem jsNumToString_ne_empty (x : Option Int) : jsNumToString x ≠ "" := by
  cases x with
  | none => decide
  | some n =>
    simp only [jsNumToString, jsIntToString]
    split
    · intro h
      have := congrArg String.data h
      simp at this
    · intro h
      have := congrArg String.data h
      simp at this
      exact jsNatChars_ne_nil n.natAbs this

/-! ## Query State Codec (Report.jsx, `parseUrlParams` and the two serializers) -/

/-- `URLSearchParams.get`: the value of the first entry with the given key. -/
def jsGet : List (String × String) → String → Option String
  | [], _ => none
  | e :: rest, key => if e.1 = key then some e.2 else jsGet rest key

/-- JS `x || d` for a nullable string: `null` and the empty string fall back
to the default. -/
def orDefault : Option String → String → String
  | none, d => d
  | some s, d => if s = "" then d else s

/-- Test for the `[]` suffix, as `key.endsWith("[]")` observes it. -/
def endsWithBrackets (k : String) : Bool :=
  match k.data.reverse with
  | ']' :: '[' :: _ => true
  | _ => false

/-- `key.endsWith("[]") ? key.slice(0, -2) : key` (Report.jsx line 60). -/
def stripBrackets (k : String) : String :=
  if endsWithBrackets k then String.mk (k.data.dropLast.dropLast) else k

/-- The reserved pagination keys excluded from filters (Report.jsx line 65). -/
def reservedKeys : List String := ["page", "limit"]

/-- The whitelist the demo page passes to the report
(SchoolDataPage.jsx line 9). -/
def allowedKeys0 : List String := ["studentClass", "gender", "house"]

/-- Accumulate one more value under a key of the `filters` object:
`filters[cleanKey] = filters[cleanKey] ? [...filters[cleanKey], value] : [value]`.
A fresh key is inserted at the end (object insertion order). -/
def addValue : List (String × List String) → String → String → List (String × List String)
  | [], k, v => [(k, [v])]
  | (k1, vs) :: rest, k, v =>
    if k1 = k then (k1, vs ++ [v]) :: rest else (k1, vs) :: addValue rest k v

/-- One step of the `for (const [key, value] of params.entries())` loop of
`parseUrlParams`: strip `[]`, whitelist against `allowedFilterKeys`, exclude
the reserved pagination keys, then accumulate. -/
def filterStep (allowed : List String) (acc : List (String × List String))
    (e : String × String) : List (String × List String) :=
  if allowed.contains (stripBrackets e.1) && !(reservedKeys.contains (stripBrackets e.1)) then
    addValue acc (stripBrackets e.1) e.2
  else acc

/-- The whole filter-collection loop of `parseUrlParams`, producing the
entries of the `filters` object in key-insertion order (which is also the
order of the `filterArray` fragments). -/
def collectFilters (allowed : List String) (q : List (String × String)) :
    List (String × List String) :=
  q.foldl (filterStep allowed) []

/-- The `{page, limit, filters}` triple returned by `parseUrlParams`:
`page` is 0-indexed (`none` = `NaN`), `limit` is the clamped rows-per-page
(`none` = `NaN`), and `filters` is the fragment list `[{key: values}, ...]`
with each fragment holding a single key. -/
structure UrlState where
  page : Option Int
  limit : Option Int
  filters : List (String × List String)
deriving DecidableEq

/-- `parseUrlParams` (Report.jsx lines 49–81) over the entry list of the
current query string. -/
def decodeQuery (allowed : List String) (q : List (String × String)) : UrlState :=
  let page := jsMaxNum 1 (jsParseInt (orDefault (jsGet q "page") "1"))
  let limit := jsMinNum (jsMaxNum 1 (jsParseInt (orDefault (jsGet q "limit") "20"))) 50
  { page := page.map (fun p => p - 1)
    limit := limit
    filters := collectFilters allowed q }

/-- Per-fragment serialization used by the initialization effect
(Report.jsx lines 98–102): one `key[]=value` entry per value, in fragment
order then value order. -/
def encodeFilters : List (String × List String) → List (String × String)
  | [] => []
  | (k, vs) :: rest => vs.map (fun v => (k ++ "[]", v)) ++ encodeFilters rest

/-- The initialization-phase serializer (Report.jsx lines 95–104):
`page` (converted back to 1-indexed) and `limit` first, then the plain
per-fragment filter entries. -/
def encodeQuery (st : UrlState) : List (String × String) :=
  ("page", jsNumToString (st.page.map (fun p => p + 1)))
    :: ("limit", jsNumToString st.limit)
    :: encodeFilters st.filters

/-- Fragment keys, in order. -/
def keysOf (fs : List (String × List String)) : List String := fs.map Prod.fst

/-- The invariant of the fragments produced by `parseUrlParams`: whitelisted,
not a reserved pagination key, and holding at least one value. -/
def GoodFrag (allowed : List String) (kv : String × List String) : Prop :=
  allowed.contains kv.1 = true ∧ reservedKeys.contains kv.1 = false ∧ kv.2 ≠ []

/-! ### Facts about filter collection -/

theorem stripBrackets_append (k : String) : stripBrackets (k ++ "[]") = k := by
  have hdata : (k ++ "[]").data = k.data ++ ['[', ']'] := by
    cases k
    rfl
  have hrev : (k.data ++ ['[', ']']).reverse = ']' :: '[' :: k.data.reverse := by
    simp
  have hends : endsWithBrackets (k ++ "[]") = true := by
    unfold endsWithBrackets
    rw [hdata, hrev]
    rfl
  unfold stripBrackets
  rw [if_pos hends, hdata]
  have h1 : k.data ++ ['[', ']'] = (k.data ++ ['[']) ++ [']'] := by simp
  rw [h1, List.dropLast_concat, List.dropLast_concat]

theorem addValue_fresh (acc : List (String × List String)) (k : String) (v : String)
    (h : k ∉ keysOf acc) : addValue acc k v = acc ++ [(k, [v])] := by
  induction acc with
  | nil => rfl
  | cons e rest ih =>
    obtain ⟨k1, vs⟩ := e
    simp only [keysOf, List.map_cons, List.mem_cons, not_or] at h
    show addValue ((k1, vs) :: rest) k v = _
    rw [addValue, if_neg (fun hk => h.1 hk.symm)]
    simp only [List.cons_append, List.cons.injEq, true_and]
    exact ih (by simpa [keysOf] using h.2)

theorem addValue_snoc (acc : List (String × List String)) (k : String) (u : List String)
    (v : String) (h : k ∉ keysOf acc) :
    addValue (acc ++ [(k, u)]) k v = acc ++ [(k, u ++ [v])] := by
  induction acc with
  | nil => simp [addValue]
  | cons e rest ih =>
    obtain ⟨k1, vs⟩ := e
    simp only [keysOf, List.map_cons, List.mem_cons, not_or] at h
    show addValue ((k1, vs) :: (rest ++ [(k, u)])) k v = _
    rw [addValue, if_neg (fun hk => h.1 hk.symm)]
    simp only [List.cons_append, List.cons.injEq, true_and]
    exact ih (by simpa [keysOf] using h.2)

theorem filterStep_allowed (allowed : List String) (acc : List (String × List String))
    (k : String) (v : String) (hk : allowed.contains k = true)
    (hr : reservedKeys.contains k = false) :
    filterStep allowed acc (k ++ "[]", v) = addValue acc k v := by
  unfold filterStep
  simp only [stripBrackets_append]
  rw [hk, hr]
  rfl

theorem foldl_filterStep_values (allowed : List String) (k : String)
    (hk : allowed.contains k = true) (hr : reservedKeys.contains k = false) :
    ∀ (ws : List String) (acc : List (String × List String)) (u : List String),
      k ∉ keysOf acc →
      List.foldl (filterStep allowed) (acc ++ [(k, u)])
          (ws.map (fun v => (k ++ "[]", v))) = acc ++ [(k, u ++ ws)] := by
  intro ws
  induction ws with
  | nil => intro acc u _; simp
  | cons w ws ih =>
    intro acc u hacc
    simp only [List.map_cons, List.foldl_cons]
    rw [filterStep_allowed allowed _ k w hk hr, addValue_snoc acc k u w hacc]
    have := ih acc (u ++ [w]) hacc
    rw [this]
    simp

theorem foldl_filterStep_encode (allowed : List String) :
    ∀ (fs acc : List (String × List String)),
      (keysOf fs).Nodup → (∀ kv ∈ fs, GoodFrag allowed kv) →
      (∀ x ∈ keysOf fs, x ∉ keysOf acc) →
      List.foldl (filterStep allowed) acc (encodeFilters fs) = acc ++ fs := by
  intro fs
  induction fs with
  | nil => intro acc _ _ _; simp [encodeFilters]
  | cons e rest ih =>
    intro acc hnd hg hdisj
    obtain ⟨k, vs⟩ := e
    obtain ⟨hka, hkr, hvs⟩ := hg (k, vs) (by simp)
    obtain ⟨v, ws, rfl⟩ := List.exists_cons_of_ne_nil hvs
    show List.foldl (filterStep allowed) acc
        (((v :: ws).map (fun v => (k ++ "[]", v))) ++ encodeFilters rest) = _
    rw [List.foldl_append]
    have hkacc : k ∉ keysOf acc := hdisj k (by simp [keysOf])
    have hstep1 : List.foldl (filterStep allowed) acc
        ((v :: ws).map (fun v => (k ++ "[]", v))) = acc ++ [(k, v :: ws)] := by
      simp only [List.map_cons, List.foldl_cons]
      rw [filterStep_allowed allowed _ k v hka hkr, addValue_fresh acc k v hkacc]
      have := foldl_filterStep_values allowed k hka hkr ws acc [v] hkacc
      rw [this]
      simp
    rw [hstep1]
    have hnd2 : (keysOf rest).Nodup := by
      simp only [keysOf, List.map_cons, List.nodup_cons] at hnd
      exact hnd.2
    have hknotrest : k ∉ keysOf rest := by
      simp only [keysOf, List.map_cons, List.nodup_cons] at hnd
      exact hnd.1
    have hdisj2 : ∀ x ∈ keysOf rest, x ∉ keysOf (acc ++ [(k, v :: ws)]) := by
      intro x hx hmem
      have hkeys : keysOf (acc ++ [(k, v :: ws)]) = keysOf acc ++ [k] := by
        simp [keysOf]
      rw [hkeys] at hmem
      rcases List.mem_append.mp hmem with h | h
      · exact hdisj x (List.mem_cons_of_mem k hx) h
      · simp only [List.mem_singleton] at h
        exact hknotrest (h ▸ hx)
    have := ih (acc ++ [(k, v :: ws)]) hnd2 (fun kv hkv => hg kv (by simp [hkv])) hdisj2
    rw [this]
    simp

theorem addValue_keys_mem (acc : List (String × List String)) (k : String) (v : String)
    (h : k ∈ keysOf acc) : keysOf (addValue acc k v) = keysOf acc := by
  induction acc with
  | nil => simp [keysOf] at h
  | cons e rest ih =>
    obtain ⟨k1, vs⟩ := e
    show keysOf (if k1 = k then (k1, vs ++ [v]) :: rest else (k1, vs) :: addValue rest k v)
      = _
    by_cases hk : k1 = k
    · rw [if_pos hk]
      rfl
    · rw [if_neg hk]
      simp only [keysOf, List.map_cons] at h ⊢
      rcases List.mem_cons.mp h with h | h
      · exact absurd h.symm hk
      · rw [show List.map Prod.fst (addValue rest k v) = keysOf (addValue rest k v) from rfl,
          ih h]
        rfl

theorem addValue_nodup_keys (acc : List (String × List String)) (k : String) (v : String)
    (h : (keysOf acc).Nodup) : (keysOf (addValue acc k v)).Nodup := by
  by_cases hk : k ∈ keysOf acc
  · rw [addValue_keys_mem acc k v hk]
    exact h
  · rw [addValue_fresh acc k v hk]
    simp only [keysOf, List.map_append, List.map_cons, List.map_nil]
    rw [List.nodup_append]
    refine ⟨h, by simp, ?_⟩
    simp only [List.disjoint_cons_right, List.disjoint_nil_right, and_true]
    exact hk

theorem addValue_good (allowed : List String) (acc : List (String × List String))
    (k : String) (v : String) (hg : ∀ kv ∈ acc, GoodFrag allowed kv)
    (hka : allowed.contains k = true) (hkr : reservedKeys.contains k = false) :
    ∀ kv ∈ addValue acc k v, GoodFrag allowed kv := by
  induction acc with
  | nil =>
    intro kv hkv
    simp only [addValue, List.mem_singleton] at hkv
    subst hkv
    exact ⟨hka, hkr, by simp⟩
  | cons e rest ih =>
    obtain ⟨k1, vs⟩ := e
    intro kv hkv
    show GoodFrag allowed kv
    rw [show addValue ((k1, vs) :: rest) k v
        = (if k1 = k then (k1, vs ++ [v]) :: rest else (k1, vs) :: addValue rest k v)
      from rfl] at hkv
    by_cases hk : k1 = k
    · rw [if_pos hk] at hkv
      rcases List.mem_cons.mp hkv with h | h
      · subst h
        obtain ⟨h1, h2, _⟩ := hg (k1, vs) (by simp)
        exact ⟨h1, h2, by simp⟩
      · exact hg kv (by simp [h])
    · rw [if_neg hk] at hkv
      rcases List.mem_cons.mp hkv with h | h
      · subst h
        exact hg (k1, vs) (by simp)
      · exact ih (fun kv hkv => hg kv (by simp [hkv])) kv h

theorem collect_invariant (allowed : List String) :
    ∀ (q : List (String × String)) (acc : List (String × List String)),
      (keysOf acc).Nodup → (∀ kv ∈ acc, GoodFrag allowed kv) →
      (keysOf (q.foldl (filterStep allowed) acc)).Nodup ∧
        ∀ kv ∈ q.foldl (filterStep allowed) acc, GoodFrag allowed kv := by
  intro q
  induction q with
  | nil => intro acc h1 h2; exact ⟨h1, h2⟩
  | cons e rest ih =>
    intro acc h1 h2
    simp only [List.foldl_cons]
    unfold filterStep
    split
    · next hcond =>
      simp only [Bool.and_eq_true, Bool.not_eq_true', decide_eq_true_eq] at hcond
      exact ih (addValue acc (stripBrackets e.1) e.2)
        (addValue_nodup_keys acc _ _ h1)
        (addValue_good allowed acc _ _ h2 hcond.1 hcond.2)
    · exact ih acc h1 h2

theorem decodeQuery_filters_good (allowed : List String) (q : List (String × String)) :
    (keysOf (decodeQuery allowed q).filters).Nodup ∧
      ∀ kv ∈ (decodeQuery allowed q).filters, GoodFrag allowed kv :=
  collect_invariant allowed q [] (by simp [keysOf]) (by simp)

/-! ### The decode/encode round trip -/

theorem filterStep_page (allowed : List String) (acc : List (String × List String))
    (v : String) : filterStep allowed acc ("page", v) = acc := by
  unfold filterStep
  rw [show stripBrackets "page" = "page" from rfl]
  rw [show reservedKeys.contains "page" = true from rfl]
  simp

theorem filterStep_limit (allowed : List String) (acc : List (String × List String))
    (v : String) : filterStep allowed acc ("limit", v) = acc := by
  unfold filterStep
  rw [show stripBrackets "limit" = "limit" from rfl]
  rw [show reservedKeys.contains "limit" = true from rfl]
  simp

theorem decodeQuery_encodeQuery (allowed : List String) (st : UrlState)
    (hp : ∀ n, st.page = some n → 0 ≤ n ∧ n + 1 < 1000000000000000000000)
    (hl : ∀ n, st.limit = some n → 1 ≤ n ∧ n ≤ 50)
    (hnd : (keysOf st.filters).Nodup)
    (hg : ∀ kv ∈ st.filters, GoodFrag allowed kv) :
    decodeQuery allowed (encodeQuery st) = st := by
  obtain ⟨p, l, fs⟩ := st
  simp only at hp hl hnd hg
  have hgetp : jsGet (encodeQuery ⟨p, l, fs⟩) "page"
      = some (jsNumToString (p.map (fun x => x + 1))) := by
    show (if "page" = "page" then _ else _) = _
    rw [if_pos rfl]
  have hgetl : jsGet (encodeQuery ⟨p, l, fs⟩) "limit"
      = some (jsNumToString l) := by
    show (if "page" = "limit" then _ else if "limit" = "limit" then _ else _) = _
    rw [if_neg (by decide), if_pos rfl]
  have hpage : (jsMaxNum 1 (jsParseInt (orDefault
      (jsGet (encodeQuery ⟨p, l, fs⟩) "page") "1"))).map (fun x => x - 1) = p := by
    rw [hgetp]
    rw [show orDefault (some (jsNumToString (p.map (fun x => x + 1)))) "1"
        = jsNumToString (p.map (fun x => x + 1)) from
      if_neg (jsNumToString_ne_empty _)]
    cases p with
    | none =>
      rw [show jsNumToString (Option.map (fun x => x + 1) none) = "NaN" from rfl]
      rw [jsParseInt_NaN]
      rfl
    | some n =>
      obtain ⟨hn, hbig⟩ := hp n rfl
      rw [show jsNumToString (Option.map (fun x => x + 1) (some n))
          = jsIntToString (n + 1) from rfl]
      rw [jsParseInt_print (n + 1) (by omega)]
      show some (max 1 (n + 1) - 1) = some n
      congr 1
      omega
  have hlimit : jsMinNum (jsMaxNum 1 (jsParseInt (orDefault
      (jsGet (encodeQuery ⟨p, l, fs⟩) "limit") "20"))) 50 = l := by
    rw [hgetl]
    rw [show orDefault (some (jsNumToString l)) "20" = jsNumToString l from
      if_neg (jsNumToString_ne_empty _)]
    cases l with
    | none =>
      rw [show jsNumToString none = "NaN" from rfl]
      rw [jsParseInt_NaN]
      rfl
    | some m =>
      obtain ⟨hm1, hm2⟩ := hl m rfl
      rw [show jsNumToString (some m) = jsIntToString m from rfl]
      rw [jsParseInt_print m (by omega)]
      show some (min (max 1 m) 50) = some m
      congr 1
      omega
  have hfilters : collectFilters allowed (encodeQuery ⟨p, l, fs⟩) = fs := by
    show List.foldl (filterStep allowed) []
        (("page", _) :: ("limit", _) :: encodeFilters fs) = fs
    simp only [List.foldl_cons]
    rw [filterStep_page, filterStep_limit]
    have := foldl_filterStep_encode allowed fs [] hnd hg (by simp [keysOf])
    rw [this]
    simp
  show UrlState.mk _ _ _ = UrlState.mk p l fs
  rw [UrlState.mk.injEq]
  exact ⟨hpage, hlimit, hfilters⟩

theorem decodeQuery_page_bounds (allowed : List String) (q : List (String × String)) :
    ∀ n, (decodeQuery allowed q).page = some n → 0 ≤ n := by
  intro n h
  have h2 : (jsMaxNum 1 (jsParseInt (orDefault (jsGet q "page") "1"))).map
      (fun x => x - 1) = some n := h
  cases hz : jsParseInt (orDefault (jsGet q "page") "1") with
  | none =>
    rw [hz] at h2
    exact Option.noConfusion h2
  | some m =>
    rw [hz] at h2
    have h3 : max 1 m - 1 = n := Option.some.inj h2
    omega

theorem decodeQuery_limit_bounds (allowed : List String) (q : List (String × String)) :
    ∀ n, (decodeQuery allowed q).limit = some n → 1 ≤ n ∧ n ≤ 50 := by
  intro n h
  have h2 : jsMinNum (jsMaxNum 1 (jsParseInt (orDefault (jsGet q "limit") "20"))) 50
      = some n := h
  cases hz : jsParseInt (orDefault (jsGet q "limit") "20") with
  | none =>
    rw [hz] at h2
    exact Option.noConfusion h2
  | some m =>
    rw [hz] at h2
    have h3 : min (max 1 m) 50 = n := Option.some.inj h2
    omega

/-- C1 counterexample: for `?page=1000000000000000000000` (`10^21`) the
round trip fails. The first decode keeps a huge page value (≠ 0), but
re-encoding prints it as `"1e+21"` — JS switches to exponential notation at
`10^21` — and the second decode's `parseInt` stops at the `'e'`, yielding
page 1, i.e. 0-indexed page 0. So `decode(encode(decode(q))) ≠ decode(q)`:
the claimed idempotence is not universal. -/
theorem c1_counterexample :
    (decodeQuery allowedKeys0 (encodeQuery (decodeQuery allowedKeys0
        [("page", "1000000000000000000000")]))).page = some 0 ∧
      (decodeQuery allowedKeys0 [("page", "1000000000000000000000")]).page ≠ some 0 := by
  constructor
  · decide
  · decide

/-- C1 amended: one normalization pass of the Query State Codec is
idempotent for every raw query string whose page parameter stays inside the
exact integer range of JS numbers — decoded (0-indexed) page `n` with
`n + 1 < 2^53 = 9007199254740992`. In that range the program's parsing,
`±1` arithmetic and plain-decimal printing are all exact, so the embedding
is faithful there; beyond it double rounding and exponential printing break
the round trip (see the counterexample at `page = 10^21`). The `limit`
field needs no restriction: it is clamped to `[1, 50]` before any printing. -/
theorem c1_amended_idempotent (allowed : List String) (q : List (String × String))
    (hsmall : ∀ n, (decodeQuery allowed q).page = some n → n + 1 < 9007199254740992) :
    decodeQuery allowed (encodeQuery (decodeQuery allowed q)) = decodeQuery allowed q := by
  obtain ⟨hnd, hg⟩ := decodeQuery_filters_good allowed q
  refine decodeQuery_encodeQuery allowed (decodeQuery allowed q) ?_
    (decodeQuery_limit_bounds allowed q) hnd hg
  intro n h
  refine ⟨decodeQuery_page_bounds allowed q n h, ?_⟩
  have := hsmall n h
  omega

/-- Witness for C1's amended statement at a small concrete query string. -/
theorem c1_witness :
    decodeQuery allowedKeys0 (encodeQuery (decodeQuery allowedKeys0
        [("page", "7"), ("gender[]", "Male")]))
      = decodeQuery allowedKeys0 [("page", "7"), ("gender[]", "Male")] :=
  c1_amended_idempotent allowedKeys0 [("page", "7"), ("gender[]", "Male")]
    (by
      intro n h
      rw [show (decodeQuery allowedKeys0 [("page", "7"), ("gender[]", "Male")]).page
          = some 6 from by decide] at h
      have h2 : n = 6 := (Option.some.inj h).symm
      rw [h2]
      decide)

/-! ## The data-fetching effect (Report.jsx lines 155–225)

Each run of the fetch effect captures the `pageNumber`/`itemsPerPage` that
triggered it and, when the provider's promise settles, updates the view with
no staleness check. We embed the settlement handler as a pure function from
the captured values and the outcome to an effect, and resolution as applying
that effect to the current view state. -/

/-- A table column, as produced by the provider's `dataMapping`. -/
structure Column where
  key : String
  title : String
deriving DecidableEq

/-- A data row: a record, opaque to the component. -/
abbrev Row := List (String × String)

/-- The display portion of the view state: `columnTitles`, `rowsData`,
`totalItems`. -/
structure DisplaySt where
  columnTitles : List Column
  rowsData : List Row
  totalItems : Nat
deriving DecidableEq

/-- A snackbar notice: message and severity. -/
structure Notice where
  message : String
  severity : String
deriving DecidableEq

/-- The settled outcome of one `getReport` call. `object` carries the three
fields the component reads, each `none` when absent from the response
object; `notObject` covers `null`/non-object results; `failure` a rejected
promise with its error message. -/
inductive ApiResult where
  | notObject : ApiResult
  | object : Option (List Column) → Option (List Row) → Option Nat → ApiResult
  | failure : String → ApiResult
deriving DecidableEq

/-- What a settled fetch does to the view. -/
inductive StepEffect where
  | resetPage : StepEffect
  | commit : DisplaySt → Option Notice → StepEffect
  | clear : Notice → StepEffect
deriving DecidableEq

/-- `Math.ceil(total / itemsPerPage)` for the in-range values
(`total : Nat`, `itemsPerPage ≥ 1`) the component state carries. -/
def totalPagesOf (total itemsPerPage : Nat) : Nat :=
  (total + itemsPerPage - 1) / itemsPerPage

/-- The empty-data notices of the commit path (Report.jsx lines 196–203):
`data[dataKey]?.length === 0 && data.total > 0` and `data.total === 0`,
with JS `undefined` comparisons evaluating to false. -/
def commitNotice (rowsField : Option (List Row)) (total : Option Nat) : Option Notice :=
  match rowsField, total with
  | some rs, some t =>
    if rs.length = 0 ∧ 0 < t then
      some ⟨"No data for current page. Adjust filters or page.", "warning"⟩
    else if t = 0 then some ⟨"No data found matching current filters.", "info"⟩
    else none
  | some _, none => none
  | none, some t =>
    if t = 0 then some ⟨"No data found matching current filters.", "info"⟩ else none
  | none, none => none

/-- The settlement handler of `fetchData` (Report.jsx lines 180–221) as a
function of the captured `pageNumber`/`itemsPerPage` and the outcome.
When `total` is absent, `Math.ceil(undefined / itemsPerPage)` is `NaN` and
both reset comparisons are false, so the commit path runs with the
`|| []` / `|| 0` defaults. -/
def fetchStep (pageNumber itemsPerPage : Nat) (res : ApiResult) : StepEffect :=
  match res with
  | .failure msg => .clear ⟨"Failed to fetch data: " ++ msg, "error"⟩
  | .notObject => .clear ⟨"No valid data returned from API.", "warning"⟩
  | .object dm rf tot =>
    match tot with
    | some total =>
      if pageNumber ≥ totalPagesOf total itemsPerPage ∧ 0 < totalPagesOf total itemsPerPage
      then .resetPage
      else if totalPagesOf total itemsPerPage = 0 ∧ pageNumber ≠ 0 then .resetPage
      else .commit ⟨dm.getD [], rf.getD [], total⟩ (commitNotice rf (some total))
    | none => .commit ⟨dm.getD [], rf.getD [], 0⟩ (commitNotice rf none)

/-- The mutable view state a settlement can touch: the current `pageNumber`
and the display. -/
structure ViewSt where
  pageNumber : Nat
  display : DisplaySt
deriving DecidableEq

/-- Apply a settlement effect to the current view state: a pagination reset
sets `pageNumber` to 0 and leaves the display untouched (the handler
returns before the `set*` calls); a commit replaces the display; a clear
empties it. -/
def applyEffect (e : StepEffect) (st : ViewSt) : ViewSt :=
  match e with
  | .resetPage => ⟨0, st.display⟩
  | .commit d _ => ⟨st.pageNumber, d⟩
  | .clear _ => ⟨st.pageNumber, ⟨[], [], 0⟩⟩

/-- A fetch that is in flight: the state snapshot captured at trigger time
and the outcome its promise will settle with. -/
structure PendingFetch where
  capturedPage : Nat
  capturedLimit : Nat
  response : ApiResult
deriving DecidableEq

/-- Settlement of one in-flight fetch against the current view state —
exactly what the code's `then`/`catch` continuation does, with no check
that the fetch is still the latest one. -/
def resolveFetch (f : PendingFetch) (st : ViewSt) : ViewSt :=
  applyEffect (fetchStep f.capturedPage f.capturedLimit f.response) st

/-- Settle a list of in-flight fetches in resolution order. -/
def resolveAll (fs : List PendingFetch) (st : ViewSt) : ViewSt :=
  fs.foldl (fun s f => resolveFetch f s) st

/-- C2: pagination correction after a successful fetch. With
`totalPages = ceil(total / itemsPerPage)` and `itemsPerPage ≥ 1`: when
`total > 0` and the captured `pageNumber ≥ totalPages`, or `total = 0` and
`pageNumber ≠ 0`, the handler resets `pageNumber` to 0 and does not commit
the received columns/rows/total; otherwise it commits them wholesale. -/
theorem c2_pagination_correction (pn ipp total : Nat) (dm : Option (List Column))
    (rf : Option (List Row)) (st : ViewSt) (hipp : 1 ≤ ipp) :
    (((0 < total ∧ totalPagesOf total ipp ≤ pn) ∨ (total = 0 ∧ pn ≠ 0)) →
      resolveFetch ⟨pn, ipp, ApiResult.object dm rf (some total)⟩ st = ⟨0, st.display⟩) ∧
    (¬(((0 < total ∧ totalPagesOf total ipp ≤ pn) ∨ (total = 0 ∧ pn ≠ 0))) →
      resolveFetch ⟨pn, ipp, ApiResult.object dm rf (some total)⟩ st
        = ⟨st.pageNumber, ⟨dm.getD [], rf.getD [], total⟩⟩) := by
  have htp0 : totalPagesOf total ipp = 0 ↔ total = 0 := by
    unfold totalPagesOf
    rw [Nat.div_eq_zero_iff (by omega)]
    omega
  have htppos : 0 < totalPagesOf total ipp ↔ 0 < total := by
    constructor
    · intro h
      by_contra hc
      have : total = 0 := by omega
      rw [htp0.mpr this] at h
      omega
    · intro h
      by_contra hc
      have : totalPagesOf total ipp = 0 := by omega
      have := htp0.mp this
      omega
  have hunfold : fetchStep pn ipp (ApiResult.object dm rf (some total))
      = if pn ≥ totalPagesOf total ipp ∧ 0 < totalPagesOf total ipp then
          StepEffect.resetPage
        else if totalPagesOf total ipp = 0 ∧ pn ≠ 0 then StepEffect.resetPage
        else StepEffect.commit ⟨dm.getD [], rf.getD [], total⟩
          (commitNotice rf (some total)) := rfl
  constructor
  · intro hcond
    show applyEffect (fetchStep pn ipp (ApiResult.object dm rf (some total))) st = _
    rw [hunfold]
    rcases hcond with ⟨ht, hge⟩ | ⟨ht, hne⟩
    · rw [if_pos ⟨hge, htppos.mpr ht⟩]
      rfl
    · rw [if_neg (by rw [htp0.mpr ht] at *; omega)]
      rw [if_pos ⟨htp0.mpr ht, hne⟩]
      rfl
  · intro hcond
    push_neg at hcond
    obtain ⟨h1, h2⟩ := hcond
    show applyEffect (fetchStep pn ipp (ApiResult.object dm rf (some total))) st = _
    rw [hunfold]
    rw [if_neg (by
      rintro ⟨hge, hpos⟩
      exact absurd hge (by have := h1 (htppos.mp hpos); omega))]
    rw [if_neg (by
      rintro ⟨htp, hne⟩
      exact hne (h2 (htp0.mp htp)))]
    rfl

/-- Witness for C2 at the spec's own example `total = 45`,
`itemsPerPage = 20`, `pageNumber = 5`: the handler resets the page to 0 and
leaves the display untouched. -/
theorem c2_witness :
    resolveFetch ⟨5, 20, ApiResult.object none none (some 45)⟩ ⟨5, ⟨[], [], 0⟩⟩
      = ⟨0, ⟨[], [], 0⟩⟩ :=
  (c2_pagination_correction 5 20 45 none none ⟨5, ⟨[], [], 0⟩⟩ (by decide)).1
    (by decide)

/-- C7: a rejected provider call clears columns/rows/total and surfaces an
error notice carrying the failure's message; the captured page is not
changed, so no further fetch is triggered by this settlement. -/
theorem c7_failure_handling (pn ipp : Nat) (msg : String) (st : ViewSt) :
    fetchStep pn ipp (ApiResult.failure msg)
        = StepEffect.clear ⟨"Failed to fetch data: " ++ msg, "error"⟩ ∧
      resolveFetch ⟨pn, ipp, ApiResult.failure msg⟩ st
        = ⟨st.pageNumber, ⟨[], [], 0⟩⟩ :=
  ⟨rfl, rfl⟩

/-- C6 counterexample: the fetch effect has no stale-response guard. The
older fetch F1 (for the state that requested `total = 1` data) settles after
the newer fetch F2; the displayed rows end up being F1's rows, which differ
from F2's rows — the claim demands that the display reflect F2's result. -/
theorem c6_counterexample :
    (resolveAll
        [⟨0, 20, ApiResult.object (some []) (some [[("id", "2")]]) (some 2)⟩,
         ⟨0, 20, ApiResult.object (some []) (some [[("id", "1")]]) (some 1)⟩]
        ⟨0, ⟨[], [], 0⟩⟩).display.rowsData = [[("id", "1")]] ∧
      ([[("id", "1")]] : List Row) ≠ [[("id", "2")]] := by
  constructor
  · rfl
  · decide

/-- C6 amended: the code applies last-RESOLVED-wins, not last-triggered-wins —
whenever the fetch that settles last commits, the display afterwards is that
fetch's result, regardless of what any earlier-settling fetches (newer or
older) wrote. -/
theorem c6_amended_last_resolved (pre : List PendingFetch) (f : PendingFetch)
    (st : ViewSt) (d : DisplaySt) (n : Option Notice)
    (h : fetchStep f.capturedPage f.capturedLimit f.response = StepEffect.commit d n) :
    (resolveAll (pre ++ [f]) st).display = d := by
  unfold resolveAll
  rw [List.foldl_append]
  show (resolveFetch f (List.foldl (fun s f => resolveFetch f s) st pre)).display = d
  unfold resolveFetch
  rw [h]
  rfl

/-- Witness for C6's amended statement on the counterexample schedule: the
stale fetch settles last and its committed display wins. -/
theorem c6_witness :
    (resolveAll
        ([⟨0, 20, ApiResult.object (some []) (some [[("id", "2")]]) (some 2)⟩]
          ++ [⟨0, 20, ApiResult.object (some []) (some [[("id", "1")]]) (some 1)⟩])
        ⟨0, ⟨[], [], 0⟩⟩).display = ⟨[], [[("id", "1")]], 1⟩ :=
  c6_amended_last_resolved
    [⟨0, 20, ApiResult.object (some []) (some [[("id", "2")]]) (some 2)⟩]
    ⟨0, 20, ApiResult.object (some []) (some [[("id", "1")]]) (some 1)⟩
    ⟨0, ⟨[], [], 0⟩⟩ ⟨[], [[("id", "1")]], 1⟩ none (by decide)

/-- C8 counterexample: an object response missing the whole expected shape
(`{}`: no `dataMapping`, no row array, no `total`) is committed as an empty
display with NO notice at all, not surfaced as a warning — only a
non-object response produces the warning notice. -/
theorem c8_counterexample :
    fetchStep 0 20 (ApiResult.object none none none)
        = StepEffect.commit ⟨[], [], 0⟩ none ∧
      StepEffect.commit (⟨[], [], 0⟩ : DisplaySt) (none : Option Notice)
        ≠ StepEffect.clear ⟨"No valid data returned from API.", "warning"⟩ := by
  constructor
  · rfl
  · decide

/-- C8 amended: only a result that is not an object is treated as an empty
result with a warning notice; an object result missing the expected fields
is committed through the normal path with each missing field defaulted
(`dataMapping → []`, row array → `[]`, `total → 0`) and no warning notice. -/
theorem c8_amended_malformed (pn ipp : Nat) (st : ViewSt) :
    (fetchStep pn ipp ApiResult.notObject
        = StepEffect.clear ⟨"No valid data returned from API.", "warning"⟩ ∧
      resolveFetch ⟨pn, ipp, ApiResult.notObject⟩ st = ⟨st.pageNumber, ⟨[], [], 0⟩⟩) ∧
    (fetchStep pn ipp (ApiResult.object none none none)
        = StepEffect.commit ⟨[], [], 0⟩ none ∧
      resolveFetch ⟨pn, ipp, ApiResult.object none none none⟩ st
        = ⟨st.pageNumber, ⟨[], [], 0⟩⟩) :=
  ⟨⟨rfl, rfl⟩, ⟨rfl, rfl⟩⟩

/-! ## The Filter Editor (FilterComponent.jsx) and the Filter Option Source
(mockApi.js) -/

/-- `getFilterName` (FilterComponent.jsx lines 32–43): filter key to the
user-friendly name used for option lookup. -/
def getFilterName (k : String) : String :=
  if k = "studentClass" then "class"
  else if k = "gender" then "gender"
  else if k = "house" then "house"
  else k

/-- `getMockFilterOptions` (mockApi.js): the valid-option set for a filter's
user-friendly name; unknown names have no options. -/
def getMockFilterOptions (name : String) : List String :=
  if name = "class" then ["5", "6", "7", "8", "9", "10"]
  else if name = "gender" then ["Male", "Female"]
  else if name = "house" then ["Red", "Green", "Blue", "Yellow"]
  else []

/-- The valid-option set of a filter key, as the editor computes it. -/
def validOptionsFor (k : String) : List String :=
  getMockFilterOptions (getFilterName k)

/-- JS object-property assignment `obj[k] = vs` on an insertion-ordered
string-keyed object: replace in place if the key exists, else append. -/
def setEntry : List (String × List String) → String → List String → List (String × List String)
  | [], k, vs => [(k, vs)]
  | (k1, vs1) :: rest, k, vs =>
    if k1 = k then (k1, vs) :: rest else (k1, vs1) :: setEntry rest k vs

/-- The `tempFilters` seeding (FilterComponent.jsx lines 48–74, also re-run
by `handleClose`, lines 114–138): for each applied fragment whose key has an
option set (i.e. is in `allowedFilterKeys`), keep only the values in that
key's current valid-option set. -/
def seedTemp (allowed : List String) (applied : List (String × List String)) :
    List (String × List String) :=
  applied.foldl
    (fun acc kv =>
      if allowed.contains kv.1 then
        setEntry acc kv.1 (kv.2.filter (fun v => (validOptionsFor kv.1).contains v))
      else acc)
    []

/-- The applied-filter list `applyFilters` builds from `tempFilters`
(FilterComponent.jsx lines 91–93): keep the keys with at least one selected
value, one single-key fragment per key, in `tempFilters` order. -/
def applyFromTemp (temp : List (String × List String)) : List (String × List String) :=
  temp.filter (fun kv => !kv.2.isEmpty)

/-- The reset temp object (FilterComponent.jsx lines 100–105): every allowed
key mapped to the empty selection. -/
def resetTemp (allowed : List String) : List (String × List String) :=
  allowed.foldl (fun acc k => setEntry acc k []) []

/-- The state the Filter Editor interacts with: the committed
`appliedFilter`, the staged `tempFilters`, and whether the drawer is open. -/
structure EditorSt where
  applied : List (String × List String)
  temp : List (String × List String)
  isOpen : Bool
deriving DecidableEq

/-- Opening the editor: seed `tempFilters` from the committed filters. -/
def openEditor (allowed : List String) (applied : List (String × List String)) : EditorSt :=
  ⟨applied, seedTemp allowed applied, true⟩

/-- `handleFilterChange` (lines 78–84): replace one key's staged value
sequence; nothing else is touched. -/
def handleFilterChange (k : String) (newVals : List String) (s : EditorSt) : EditorSt :=
  ⟨s.applied, setEntry s.temp k newVals, s.isOpen⟩

/-- `applyFilters` (lines 88–96): commit the staged filters and close. -/
def applyFilters (s : EditorSt) : EditorSt :=
  ⟨applyFromTemp s.temp, s.temp, false⟩

/-- `resetFilters` (lines 99–109): clear the staged and the committed
filters and close. -/
def resetFilters (allowed : List String) (_s : EditorSt) : EditorSt :=
  ⟨[], resetTemp allowed, false⟩

/-- `handleClose` (lines 114–138): re-derive the staged filters from the
committed ones (same validation as seeding) and close; the committed
filters are untouched. -/
def handleClose (allowed : List String) (s : EditorSt) : EditorSt :=
  ⟨s.applied, seedTemp allowed s.applied, false⟩

/-- Apply a sequence of editor edits. -/
def applyEdits (edits : List (String × List String)) (s : EditorSt) : EditorSt :=
  edits.foldl (fun t e => handleFilterChange e.1 e.2 t) s

theorem applyEdits_applied (edits : List (String × List String)) (s : EditorSt) :
    (applyEdits edits s).applied = s.applied := by
  induction edits generalizing s with
  | nil => rfl
  | cons e rest ih => exact ih (handleFilterChange e.1 e.2 s)

/-- C9: filter-commit isolation. Any sequence of edits leaves the committed
`appliedFilter` unchanged; closing without applying still leaves it
unchanged and re-derives the staged filters from the committed ones,
discarding every edit; and the only editor transitions that produce a new
committed filter set are `applyFilters` (from the staged set, dropping
empty selections) and `resetFilters` (to the empty set). -/
theorem c9_commit_isolation (allowed : List String) (s : EditorSt)
    (edits : List (String × List String)) :
    (applyEdits edits s).applied = s.applied ∧
      (handleClose allowed (applyEdits edits s)).applied = s.applied ∧
      (handleClose allowed (applyEdits edits s)).temp = seedTemp allowed s.applied ∧
      (applyFilters s).applied = applyFromTemp s.temp ∧
      (resetFilters allowed s).applied = [] := by
  have h := applyEdits_applied edits s
  refine ⟨h, ?_, ?_, rfl, rfl⟩
  · show (applyEdits edits s).applied = s.applied
    exact h
  · show seedTemp allowed (applyEdits edits s).applied = seedTemp allowed s.applied
    rw [h]

/-! ### Validation and whitelist facts about the editor -/

theorem setEntry_mem :
    ∀ (acc : List (String × List String)) (k : String) (vs : List String)
      (kv : String × List String), kv ∈ setEntry acc k vs → kv ∈ acc ∨ kv = (k, vs) := by
  intro acc
  induction acc with
  | nil =>
    intro k vs kv hkv
    simp only [setEntry, List.mem_singleton] at hkv
    exact Or.inr hkv
  | cons e rest ih =>
    intro k vs kv hkv
    obtain ⟨k1, vs1⟩ := e
    rw [show setEntry ((k1, vs1) :: rest) k vs
        = (if k1 = k then (k1, vs) :: rest else (k1, vs1) :: setEntry rest k vs)
      from rfl] at hkv
    by_cases hk : k1 = k
    · rw [if_pos hk] at hkv
      rcases List.mem_cons.mp hkv with h | h
      · subst hk
        exact Or.inr h
      · exact Or.inl (List.mem_cons_of_mem _ h)
    · rw [if_neg hk] at hkv
      rcases List.mem_cons.mp hkv with h | h
      · exact Or.inl (h ▸ List.mem_cons_self _ _)
      · rcases ih k vs kv h with h2 | h2
        · exact Or.inl (List.mem_cons_of_mem _ h2)
        · exact Or.inr h2

theorem setEntry_keys_mem :
    ∀ (acc : List (String × List String)) (k : String) (vs : List String) (k2 : String),
      k2 ∈ keysOf (setEntry acc k vs) → k2 = k ∨ k2 ∈ keysOf acc := by
  intro acc
  induction acc with
  | nil =>
    intro k vs k2 h
    simp only [setEntry, keysOf, List.map_cons, List.map_nil, List.mem_singleton] at h
    exact Or.inl h
  | cons e rest ih =>
    intro k vs k2 h
    obtain ⟨k1, vs1⟩ := e
    rw [show setEntry ((k1, vs1) :: rest) k vs
        = (if k1 = k then (k1, vs) :: rest else (k1, vs1) :: setEntry rest k vs)
      from rfl] at h
    by_cases hk : k1 = k
    · rw [if_pos hk] at h
      simp only [keysOf, List.map_cons, List.mem_cons] at h ⊢
      rcases h with h | h
      · exact Or.inl (h.trans hk)
      · exact Or.inr (Or.inr h)
    · rw [if_neg hk] at h
      simp only [keysOf, List.map_cons, List.mem_cons] at h ⊢
      rcases h with h | h
      · exact Or.inr (Or.inl h)
      · rcases ih k vs k2 h with h2 | h2
        · exact Or.inl h2
        · exact Or.inr (Or.inr h2)

/-- The invariant maintained while `tempFilters` is seeded: every staged key
has an option set (is allowed), and every staged value is in its key's
valid-option set. -/
theorem seedTemp_fold_invariant (allowed : List String) :
    ∀ (applied acc : List (String × List String)),
      (∀ kv ∈ acc, allowed.contains kv.1 = true ∧
          ∀ v ∈ kv.2, (validOptionsFor kv.1).contains v = true) →
      ∀ kv ∈ applied.foldl
          (fun acc kv =>
            if allowed.contains kv.1 then
              setEntry acc kv.1 (kv.2.filter (fun v => (validOptionsFor kv.1).contains v))
            else acc)
          acc,
        allowed.contains kv.1 = true ∧
          ∀ v ∈ kv.2, (validOptionsFor kv.1).contains v = true := by
  intro applied
  induction applied with
  | nil => intro acc hacc kv hkv; exact hacc kv hkv
  | cons e rest ih =>
    intro acc hacc kv hkv
    simp only [List.foldl_cons] at hkv
    by_cases he : allowed.contains e.1 = true
    · rw [if_pos he] at hkv
      refine ih _ ?_ kv hkv
      intro kv2 hkv2
      rcases setEntry_mem _ _ _ kv2 hkv2 with h | h
      · exact hacc kv2 h
      · subst h
        refine ⟨he, ?_⟩
        intro v hv
        exact (List.mem_filter.mp hv).2
    · rw [if_neg he] at hkv
      exact ih acc hacc kv hkv

theorem seedTemp_good (allowed : List String) (applied : List (String × List String)) :
    ∀ kv ∈ seedTemp allowed applied,
      allowed.contains kv.1 = true ∧
        ∀ v ∈ kv.2, (validOptionsFor kv.1).contains v = true :=
  seedTemp_fold_invariant allowed applied [] (by simp)

/-- C5 counterexample: the URL value `Martian` under `gender` is not in
`gender`'s option set, yet re-deriving state from the URL places it into
`appliedFilter` unvalidated. Only the editor's `tempFilters` seeding drops
it — `appliedFilter` keeps it. -/
theorem c5_counterexample :
    (decodeQuery allowedKeys0 [("gender[]", "Martian")]).filters
        = [("gender", ["Martian"])] ∧
      (validOptionsFor "gender").contains "Martian" = false ∧
      seedTemp allowedKeys0 [("gender", ["Martian"])] = [("gender", [])] := by
  refine ⟨?_, ?_, ?_⟩ <;> decide

/-- C5 amended: option-set validation happens when `tempFilters` is seeded
or re-derived (editor open and close), not when `appliedFilter` is
re-derived from the URL — every value staged by the seeding belongs to its
key's valid-option set, values outside it being silently dropped. -/
theorem c5_amended_validation (allowed : List String)
    (applied : List (String × List String)) (k : String) (vs : List String)
    (v : String) (hmem : (k, vs) ∈ seedTemp allowed applied) (hv : v ∈ vs) :
    (validOptionsFor k).contains v = true :=
  (seedTemp_good allowed applied (k, vs) hmem).2 v hv

/-- Witness for C5's amended statement: seeding from
`{gender: ["Male", "Martian"]}` stages only `Male`, and `Male` is indeed a
valid `gender` option. -/
theorem c5_witness : (validOptionsFor "gender").contains "Male" = true :=
  c5_amended_validation allowedKeys0 [("gender", ["Male", "Martian"])] "gender"
    ["Male"] "Male" (by decide) (by decide)

/-! ### C3: limit clamping -/

/-- C3 counterexample: the claim says limit inputs `0`, negatives and
non-numeric strings decode to the default 20 and always land in `[1, 50]`;
in fact `0` and `-5` clamp to 1 (not 20), and `"abc"` parses to `NaN`,
which is neither 20 nor in `[1, 50]`. -/
theorem c3_counterexample :
    (decodeQuery allowedKeys0 [("limit", "0")]).limit = some 1 ∧
      (decodeQuery allowedKeys0 [("limit", "-5")]).limit = some 1 ∧
      (decodeQuery allowedKeys0 [("limit", "abc")]).limit = none ∧
      (some (1 : Int) ≠ some (20 : Int)) := by
  refine ⟨?_, ?_, ?_, ?_⟩ <;> decide

/-- C3 amended: every numeric limit input is clamped into `[1, 50]` — values
below 1 (including 0 and negatives) become 1, values above 50 become 50 —
while an absent or empty limit yields the default 20 and a non-numeric
limit becomes `NaN` rather than the default. -/
theorem c3_amended_clamping :
    (∀ (q : List (String × String)) (l : Int),
        (decodeQuery allowedKeys0 q).limit = some l → 1 ≤ l ∧ l ≤ 50) ∧
      (decodeQuery allowedKeys0 []).limit = some 20 ∧
      (decodeQuery allowedKeys0 [("limit", "")]).limit = some 20 ∧
      (decodeQuery allowedKeys0 [("limit", "0")]).limit = some 1 ∧
      (decodeQuery allowedKeys0 [("limit", "-5")]).limit = some 1 ∧
      (decodeQuery allowedKeys0 [("limit", "51")]).limit = some 50 ∧
      (decodeQuery allowedKeys0 [("limit", "1000")]).limit = some 50 ∧
      (decodeQuery allowedKeys0 [("limit", "abc")]).limit = none := by
  refine ⟨?_, ?_, ?_, ?_, ?_, ?_, ?_, ?_⟩
  · exact fun q l h => decodeQuery_limit_bounds allowedKeys0 q l h
  all_goals decide

/-- Witness for C3's amended statement: a numeric in-range input decodes to
itself, inside the clamping bounds. -/
theorem c3_witness : (1 : Int) ≤ 35 ∧ (35 : Int) ≤ 50 :=
  c3_amended_clamping.1 [("limit", "35")] 35 (by decide)

/-! ### C4: whitelist enforcement -/

theorem encodeFilters_mem :
    ∀ (fs : List (String × List String)) (e : String × String),
      e ∈ encodeFilters fs → ∃ k vs, (k, vs) ∈ fs ∧ e.1 = k ++ "[]" := by
  intro fs
  induction fs with
  | nil => intro e h; simp [encodeFilters] at h
  | cons kv rest ih =>
    intro e h
    obtain ⟨k, vs⟩ := kv
    rw [show encodeFilters ((k, vs) :: rest)
        = vs.map (fun v => (k ++ "[]", v)) ++ encodeFilters rest from rfl] at h
    rcases List.mem_append.mp h with h | h
    · obtain ⟨v, _, rfl⟩ := List.mem_map.mp h
      exact ⟨k, vs, by simp, rfl⟩
    · obtain ⟨k2, vs2, hmem, heq⟩ := ih e h
      exact ⟨k2, vs2, List.mem_cons_of_mem _ hmem, heq⟩

/-- Keys of whatever `foldl setEntry · []` builds over a key list come from
that key list. -/
theorem foldl_setEntry_empty_keys (P : String → Prop) :
    ∀ (ks : List String) (acc : List (String × List String)),
      (∀ k ∈ keysOf acc, P k) → (∀ k ∈ ks, P k) →
      ∀ k ∈ keysOf (ks.foldl (fun a k => setEntry a k []) acc), P k := by
  intro ks
  induction ks with
  | nil => intro acc hacc _ k hk; exact hacc k hk
  | cons k0 rest ih =>
    intro acc hacc hks k hk
    simp only [List.foldl_cons] at hk
    refine ih (setEntry acc k0 []) ?_ (fun x hx => hks x (by simp [hx])) k hk
    intro k2 hk2
    rcases setEntry_keys_mem acc k0 [] k2 hk2 with h | h
    · exact h ▸ hks k0 (by simp)
    · exact hacc k2 h

/-! ## The state-change-phase serializer (Report.jsx lines 118–151)

The URL-sync effect consolidates the applied fragments into a single
`filterValues` object whose per-key values live in a JS `Set` (insertion
order, duplicates dropped), then appends one `key[]` entry per value. -/

/-- `Set.prototype.add` on an insertion-ordered set of strings. -/
def jsSetAdd (s : List String) (v : String) : List String :=
  if s.contains v then s else s ++ [v]

/-- `new Set(values)`: insertion-ordered, first occurrence wins. -/
def jsSetOfList (vs : List String) : List String :=
  vs.foldl jsSetAdd []

/-- Merge one fragment into `filterValues`
(Report.jsx lines 128–136): a fresh key gets `new Set(values)` appended at
the end; an existing key has the values added to its set in place. -/
def addValuesAt : List (String × List String) → String → List String → List (String × List String)
  | [], k, vs => [(k, jsSetOfList vs)]
  | (k1, cur) :: rest, k, vs =>
    if k1 = k then (k1, vs.foldl jsSetAdd cur) :: rest
    else (k1, cur) :: addValuesAt rest k vs

/-- The whole `filterValues` consolidation over the applied fragments. -/
def consolidate (frags : List (String × List String)) : List (String × List String) :=
  frags.foldl (fun acc kv => addValuesAt acc kv.1 kv.2) []

/-- The state-change-phase serializer (Report.jsx lines 121–144): `page` and
`limit`, then one `key[]` entry per consolidated value. -/
def encodeSync (st : UrlState) : List (String × String) :=
  ("page", jsNumToString (st.page.map (fun p => p + 1)))
    :: ("limit", jsNumToString st.limit)
    :: encodeFilters (consolidate st.filters)

theorem foldl_jsSetAdd_fresh :
    ∀ (vs acc : List String), vs.Nodup → (∀ v ∈ vs, v ∉ acc) →
      vs.foldl jsSetAdd acc = acc ++ vs := by
  intro vs
  induction vs with
  | nil => intro acc _ _; simp
  | cons v ws ih =>
    intro acc hnd hdisj
    simp only [List.foldl_cons]
    have hnotin : acc.contains v = false := by
      simpa using hdisj v (by simp)
    rw [show jsSetAdd acc v = acc ++ [v] by unfold jsSetAdd; rw [hnotin]; simp]
    have hnd2 : ws.Nodup := (List.nodup_cons.mp hnd).2
    have hvw : v ∉ ws := (List.nodup_cons.mp hnd).1
    have hdisj2 : ∀ w ∈ ws, w ∉ acc ++ [v] := by
      intro w hw hmem
      rcases List.mem_append.mp hmem with h | h
      · exact hdisj w (by simp [hw]) h
      · simp only [List.mem_singleton] at h
        exact hvw (h ▸ hw)
    rw [ih (acc ++ [v]) hnd2 hdisj2]
    simp

theorem jsSetOfList_nodup (vs : List String) (h : vs.Nodup) : jsSetOfList vs = vs := by
  have := foldl_jsSetAdd_fresh vs [] h (by simp)
  simpa [jsSetOfList] using this

theorem addValuesAt_fresh :
    ∀ (acc : List (String × List String)) (k : String) (vs : List String),
      k ∉ keysOf acc → addValuesAt acc k vs = acc ++ [(k, jsSetOfList vs)] := by
  intro acc
  induction acc with
  | nil => intro k vs _; rfl
  | cons e rest ih =>
    intro k vs hk
    obtain ⟨k1, cur⟩ := e
    simp only [keysOf, List.map_cons, List.mem_cons, not_or] at hk
    show (if k1 = k then (k1, vs.foldl jsSetAdd cur) :: rest
        else (k1, cur) :: addValuesAt rest k vs) = _
    rw [if_neg (fun h => hk.1 h.symm)]
    rw [ih k vs (by simpa [keysOf] using hk.2)]
    simp

theorem consolidate_fold_nodup :
    ∀ (fs acc : List (String × List String)),
      (keysOf fs).Nodup → (∀ x ∈ keysOf fs, x ∉ keysOf acc) →
      fs.foldl (fun acc kv => addValuesAt acc kv.1 kv.2) acc
        = acc ++ fs.map (fun kv => (kv.1, jsSetOfList kv.2)) := by
  intro fs
  induction fs with
  | nil => intro acc _ _; simp
  | cons e rest ih =>
    intro acc hnd hdisj
    obtain ⟨k, vs⟩ := e
    simp only [List.foldl_cons]
    have hk : k ∉ keysOf acc := hdisj k (by simp [keysOf])
    rw [addValuesAt_fresh acc k vs hk]
    have hnd2 : (keysOf rest).Nodup := by
      simp only [keysOf, List.map_cons, List.nodup_cons] at hnd
      exact hnd.2
    have hkrest : k ∉ keysOf rest := by
      simp only [keysOf, List.map_cons, List.nodup_cons] at hnd
      exact hnd.1
    have hdisj2 : ∀ x ∈ keysOf rest, x ∉ keysOf (acc ++ [(k, jsSetOfList vs)]) := by
      intro x hx hmem
      have hkeys : keysOf (acc ++ [(k, jsSetOfList vs)]) = keysOf acc ++ [k] := by
        simp [keysOf]
      rw [hkeys] at hmem
      rcases List.mem_append.mp hmem with h | h
      · exact hdisj x (List.mem_cons_of_mem k hx) h
      · simp only [List.mem_singleton] at h
        exact hkrest (h ▸ hx)
    rw [ih (acc ++ [(k, jsSetOfList vs)]) hnd2 hdisj2]
    simp

/-- C10: on every state whose filter fragments have pairwise-distinct keys
and duplicate-free value sequences, the initialization-phase serializer
(plain per-fragment appending) and the state-change-phase serializer
(Set-based consolidation) produce the same query-string entry list. -/
theorem c10_serializers_agree (st : UrlState)
    (hnd : (keysOf st.filters).Nodup)
    (hvals : ∀ kv ∈ st.filters, kv.2.Nodup) :
    encodeSync st = encodeQuery st := by
  unfold encodeSync encodeQuery
  have hcons : consolidate st.filters = st.filters := by
    unfold consolidate
    rw [consolidate_fold_nodup st.filters [] hnd (by simp [keysOf])]
    have hmap : st.filters.map (fun kv => (kv.1, jsSetOfList kv.2)) = st.filters := by
      calc st.filters.map (fun kv => (kv.1, jsSetOfList kv.2))
          = st.filters.map id := by
            apply List.map_congr_left
            intro kv hkv
            obtain ⟨k, vs⟩ := kv
            simp [jsSetOfList_nodup vs (hvals (k, vs) hkv)]
        _ = st.filters := List.map_id st.filters
    rw [hmap]
    simp
  rw [hcons]

/-- Witness for C10 on a concrete state: distinct keys, duplicate-free value
lists, identical serializations. -/
theorem c10_witness :
    encodeSync ⟨some 0, some 20, [("gender", ["Male"]), ("house", ["Red", "Blue"])]⟩
      = encodeQuery ⟨some 0, some 20, [("gender", ["Male"]), ("house", ["Red", "Blue"])]⟩ :=
  c10_serializers_agree
    ⟨some 0, some 20, [("gender", ["Male"]), ("house", ["Red", "Blue"])]⟩
    (by decide) (by decide)

/-! ### C4: whitelist enforcement, covering both serializers -/

theorem addValuesAt_keys_mem :
    ∀ (acc : List (String × List String)) (k : String) (vs : List String) (k2 : String),
      k2 ∈ keysOf (addValuesAt acc k vs) → k2 = k ∨ k2 ∈ keysOf acc := by
  intro acc
  induction acc with
  | nil =>
    intro k vs k2 h
    simp only [addValuesAt, keysOf, List.map_cons, List.map_nil, List.mem_singleton] at h
    exact Or.inl h
  | cons e rest ih =>
    intro k vs k2 h
    obtain ⟨k1, cur⟩ := e
    rw [show addValuesAt ((k1, cur) :: rest) k vs
        = (if k1 = k then (k1, vs.foldl jsSetAdd cur) :: rest
          else (k1, cur) :: addValuesAt rest k vs)
      from rfl] at h
    by_cases hk : k1 = k
    · rw [if_pos hk] at h
      simp only [keysOf, List.map_cons, List.mem_cons] at h ⊢
      rcases h with h | h
      · exact Or.inl (h.trans hk)
      · exact Or.inr (Or.inr h)
    · rw [if_neg hk] at h
      simp only [keysOf, List.map_cons, List.mem_cons] at h ⊢
      rcases h with h | h
      · exact Or.inr (Or.inl h)
      · rcases ih k vs k2 h with h2 | h2
        · exact Or.inl h2
        · exact Or.inr (Or.inr h2)

/-- Every key of the consolidated `filterValues` object comes from the
applied fragments — with no assumption on duplicates. -/
theorem consolidate_keys_sub :
    ∀ (fs acc : List (String × List String)) (k : String),
      k ∈ keysOf (fs.foldl (fun acc kv => addValuesAt acc kv.1 kv.2) acc) →
      k ∈ keysOf fs ∨ k ∈ keysOf acc := by
  intro fs
  induction fs with
  | nil => intro acc k h; exact Or.inr h
  | cons e rest ih =>
    intro acc k h
    simp only [List.foldl_cons] at h
    rcases ih (addValuesAt acc e.1 e.2) k h with h2 | h2
    · exact Or.inl (List.mem_cons_of_mem _ h2)
    · rcases addValuesAt_keys_mem acc e.1 e.2 k h2 with h3 | h3
      · refine Or.inl ?_
        rw [h3]
        exact List.mem_cons_self _ _
      · exact Or.inr h3

/-- C4: whitelist enforcement. (1) Every fragment key decoded from a query
string is in `allowedFilterKeys` and is not a reserved pagination key;
(2) when the state's filter keys are whitelisted, every entry key of the
query string produced by the initialization-phase serializer cleans to
`page`, `limit`, or a whitelisted key; (3) the same for the
state-change-phase serializer (`encodeSync`, Set-based consolidation), with
no restriction on duplicate values; (4) seeding `tempFilters` only stages
whitelisted keys; (5) a commit's keys come from the staged keys; (6) a
reset's staged keys come from `allowedFilterKeys`; (7) an edit adds only
its own key. Together: a key outside `allowedFilterKeys` never enters the
filter selection, the applied set, or any re-serialized query string. -/
theorem c4_whitelist :
    (∀ (allowed : List String) (q : List (String × String)) (kv : String × List String),
        kv ∈ (decodeQuery allowed q).filters →
        allowed.contains kv.1 = true ∧ reservedKeys.contains kv.1 = false) ∧
      (∀ (allowed : List String) (st : UrlState),
        (∀ k ∈ keysOf st.filters, k ∈ allowed) →
        ∀ e ∈ encodeQuery st,
          stripBrackets e.1 = "page" ∨ stripBrackets e.1 = "limit" ∨
            stripBrackets e.1 ∈ allowed) ∧
      (∀ (allowed : List String) (st : UrlState),
        (∀ k ∈ keysOf st.filters, k ∈ allowed) →
        ∀ e ∈ encodeSync st,
          stripBrackets e.1 = "page" ∨ stripBrackets e.1 = "limit" ∨
            stripBrackets e.1 ∈ allowed) ∧
      (∀ (allowed : List String) (applied : List (String × List String))
          (kv : String × List String),
        kv ∈ seedTemp allowed applied → allowed.contains kv.1 = true) ∧
      (∀ (temp : List (String × List String)) (kv : String × List String),
        kv ∈ applyFromTemp temp → kv.1 ∈ keysOf temp) ∧
      (∀ (allowed : List String) (k : String),
        k ∈ keysOf (resetTemp allowed) → k ∈ allowed) ∧
      (∀ (temp : List (String × List String)) (k : String) (vs : List String)
          (k2 : String),
        k2 ∈ keysOf (setEntry temp k vs) → k2 = k ∨ k2 ∈ keysOf temp) := by
  refine ⟨?_, ?_, ?_, ?_, ?_, ?_, ?_⟩
  · intro allowed q kv hkv
    obtain ⟨h1, h2, _⟩ := (decodeQuery_filters_good allowed q).2 kv hkv
    exact ⟨h1, h2⟩
  · intro allowed st hsub e he
    rcases List.mem_cons.mp he with h | he
    · subst h
      exact Or.inl rfl
    rcases List.mem_cons.mp he with h | he
    · subst h
      exact Or.inr (Or.inl rfl)
    · obtain ⟨k, vs, hmem, heq⟩ := encodeFilters_mem st.filters e he
      refine Or.inr (Or.inr ?_)
      rw [heq, stripBrackets_append]
      exact hsub k (List.mem_map_of_mem Prod.fst hmem)
  · intro allowed st hsub e he
    rcases List.mem_cons.mp he with h | he
    · subst h
      exact Or.inl rfl
    rcases List.mem_cons.mp he with h | he
    · subst h
      exact Or.inr (Or.inl rfl)
    · obtain ⟨k, vs, hmem, heq⟩ := encodeFilters_mem (consolidate st.filters) e he
      refine Or.inr (Or.inr ?_)
      rw [heq, stripBrackets_append]
      have hk : k ∈ keysOf (consolidate st.filters) :=
        List.mem_map_of_mem Prod.fst hmem
      rcases consolidate_keys_sub st.filters [] k hk with h2 | h2
      · exact hsub k h2
      · simp [keysOf] at h2
  · intro allowed applied kv hkv
    exact (seedTemp_good allowed applied kv hkv).1
  · intro temp kv hkv
    have := List.mem_filter.mp hkv
    exact List.mem_map_of_mem Prod.fst this.1
  · intro allowed k hk
    exact foldl_setEntry_empty_keys (fun x => x ∈ allowed) allowed [] (by simp [keysOf])
      (fun x hx => hx) k hk
  · exact setEntry_keys_mem

/-- Witness for C4: the key `gender[]=Male` decodes to the whitelisted,
non-reserved fragment key `gender`, and the sync-phase serializer of a
duplicate-value state emits only `page`/`limit`/whitelisted cleaned keys. -/
theorem c4_witness :
    (allowedKeys0.contains "gender" = true ∧ reservedKeys.contains "gender" = false) ∧
      (stripBrackets ("gender" ++ "[]") = "page" ∨
        stripBrackets ("gender" ++ "[]") = "limit" ∨
        stripBrackets ("gender" ++ "[]") ∈ allowedKeys0) :=
  ⟨c4_whitelist.1 allowedKeys0 [("gender[]", "Male")] ("gender", ["Male"]) (by decide),
    c4_whitelist.2.2.1 allowedKeys0 ⟨some 0, some 20, [("gender", ["Male", "Male"])]⟩
      (by decide) ("gender" ++ "[]", "Male") (by decide)⟩

end ReportModel
